import Mathlib

/-!
Shallow embedding of the `thirsty` adaptive spatial query planner and
proximity filter (`src/thirsty/core.py`), together with proofs of the
specified properties.

Track points and POI coordinates are decimal degrees, modelled as real
numbers.  The scipy `KDTree.query_ball_point` call is modelled by its
documented semantics: the list of indices of all points whose Euclidean
distance (in raw degree coordinates) to the query center is at most the
query radius.  The Overpass network call and the GPX parser are external
collaborators; the orchestrator is parametrised by a query function.
The unbounded Python recursion of `get_relevant_bboxes` is embedded with
an explicit fuel parameter: `none` means the recursion did not finish
within the given depth budget.
-/

namespace Thirsty

noncomputable section

/-- A track point: `(latitude, longitude)` in decimal degrees. -/
@[ext]
structure Point where
  lat : ℝ
  lon : ℝ

instance : Inhabited Point := ⟨⟨0, 0⟩⟩

/-- A bounding box `(south, west, north, east)` in decimal degrees,
mirroring the tuples used throughout `core.py`. -/
@[ext]
structure BBox where
  south : ℝ
  west : ℝ
  north : ℝ
  east : ℝ

/-- Constant `APPROX_DEGREES_PER_METER = 1 / 111320.0` from `core.py`. -/
def APPROX_DEGREES_PER_METER : ℝ := 1 / 111320

/-- Squared Euclidean distance between two points in degree coordinates. -/
def sqDist (p q : Point) : ℝ := (p.lat - q.lat) ^ 2 + (p.lon - q.lon) ^ 2

/-- Euclidean distance in degree coordinates, the metric used by the
scipy `KDTree` over `(lat, lon)` pairs. -/
def euclidDist (p q : Point) : ℝ := Real.sqrt (sqDist p q)

/-- Embedding of `math.atan2 y x`. -/
def atan2 (y x : ℝ) : ℝ :=
  if 0 < x then Real.arctan (y / x)
  else if x < 0 then
    (if 0 ≤ y then Real.arctan (y / x) + Real.pi else Real.arctan (y / x) - Real.pi)
  else
    (if 0 < y then Real.pi / 2 else if y < 0 then -(Real.pi / 2) else 0)

/-- Embedding of `math.radians`: degrees to radians. -/
def radians (x : ℝ) : ℝ := x * Real.pi / 180

/-- Function `haversine` from `core.py`: great-circle distance in meters between
two GPS points on a spherical earth of radius 6,371,000 m. -/
def haversine (lat1 lon1 lat2 lon2 : ℝ) : ℝ :=
  let R : ℝ := 6371000
  let phi1 := radians lat1
  let phi2 := radians lat2
  let dPhi := radians (lat2 - lat1)
  let dLambda := radians (lon2 - lon1)
  let a := Real.sin (dPhi / 2) ^ 2 +
    Real.cos phi1 * Real.cos phi2 * Real.sin (dLambda / 2) ^ 2
  let c := 2 * atan2 (Real.sqrt a) (Real.sqrt (1 - a))
  R * c

open Classical in
/-- Embedding of `KDTree.query_ball_point(center, r)` over the point list `pts`:
indices of all points within Euclidean degree-distance `r` of `center`. -/
def queryBallPoint (pts : List Point) (center : Point) (r : ℝ) : List ℕ :=
  (List.range pts.length).filter fun i => decide (euclidDist (pts.getD i default) center ≤ r)

/-- Function `_bbox_contains_gpx_points` from `core.py`: dilate the bbox by 5 % of
its height/width on each side, radius-query the KD-tree at the centroid
of the dilated box with radius half its diagonal inflated by 1.1×, and accept
as soon as a candidate lies in the dilated rectangle. -/
def bboxContainsGpxPoints (bbox : BBox) (pts : List Point) : Prop :=
  let latMargin := (bbox.north - bbox.south) * 0.05
  let lonMargin := (bbox.east - bbox.west) * 0.05
  let dilatedSouth := bbox.south - latMargin
  let dilatedNorth := bbox.north + latMargin
  let dilatedWest := bbox.west - lonMargin
  let dilatedEast := bbox.east + lonMargin
  let centerLat := (dilatedSouth + dilatedNorth) / 2
  let centerLon := (dilatedWest + dilatedEast) / 2
  let diagonalLatDeg := dilatedNorth - dilatedSouth
  let diagonalLonDeg := dilatedEast - dilatedWest
  let approxBboxRadiusDeg := Real.sqrt (diagonalLatDeg ^ 2 + diagonalLonDeg ^ 2) / 2
  ∃ idx ∈ queryBallPoint pts ⟨centerLat, centerLon⟩ (approxBboxRadiusDeg * 1.1),
    dilatedSouth ≤ (pts.getD idx default).lat ∧ (pts.getD idx default).lat ≤ dilatedNorth ∧
    dilatedWest ≤ (pts.getD idx default).lon ∧ (pts.getD idx default).lon ≤ dilatedEast

/-- Function `_subdivide_bbox` from `core.py`: split a bbox into a
`latDivisions × lonDivisions` grid, row-major. -/
def subdivideBbox (bbox : BBox) (latDivisions lonDivisions : ℕ) : List BBox :=
  let latStep := (bbox.north - bbox.south) / latDivisions
  let lonStep := (bbox.east - bbox.west) / lonDivisions
  (List.range latDivisions).flatMap fun (i : ℕ) =>
    (List.range lonDivisions).map fun (j : ℕ) =>
      ⟨bbox.south + (i : ℝ) * latStep, bbox.west + (j : ℝ) * lonStep,
       bbox.south + ((i : ℝ) + 1) * latStep, bbox.west + ((j : ℝ) + 1) * lonStep⟩

/-- Area of a bbox in square degrees, `(north - south) * (east - west)`. -/
def bboxArea (b : BBox) : ℝ := (b.north - b.south) * (b.east - b.west)

/-- Sequence a list of `Option (List β)` results, concatenating the
payloads in order; `none` as soon as one element fails.  This renders the
Python `for sub_bbox in sub_bboxes: bboxes.extend(recurse(sub_bbox))`
loop over the fuel-instrumented recursion. -/
def collectSome {α β : Type} (f : α → Option (List β)) : List α → Option (List β)
  | [] => some []
  | x :: xs =>
    match f x, collectSome f xs with
    | some l, some r => some (l ++ r)
    | _, _ => none

open Classical in
/-- Function `get_relevant_bboxes` from `core.py`, instrumented with fuel: prune a
bbox containing no GPX point, emit a bbox whose area is at most
`maxBboxAreaSqDeg`, otherwise subdivide and recurse.  `none` means the
recursion exceeded the fuel budget. -/
def getRelevantBboxes (fuel : ℕ) (bbox : BBox) (pts : List Point)
    (maxBboxAreaSqDeg : ℝ) (latDivisions lonDivisions : ℕ) : Option (List BBox) :=
  match fuel with
  | 0 => none
  | fuel' + 1 =>
    if ¬ bboxContainsGpxPoints bbox pts then some []
    else if bboxArea bbox ≤ maxBboxAreaSqDeg then some [bbox]
    else
      collectSome
        (fun sub => getRelevantBboxes fuel' sub pts maxBboxAreaSqDeg latDivisions lonDivisions)
        (subdivideBbox bbox latDivisions lonDivisions)

/-- Raw minimum latitude of a non-empty point list (0 for the empty list),
computed by the running fold of `get_bounds`. -/
def rawMinLat : List Point → ℝ
  | [] => 0
  | p :: ps => ps.foldl (fun acc q => min acc q.lat) p.lat

/-- Raw maximum latitude, as folded by `get_bounds`. -/
def rawMaxLat : List Point → ℝ
  | [] => 0
  | p :: ps => ps.foldl (fun acc q => max acc q.lat) p.lat

/-- Raw minimum longitude, as folded by `get_bounds`. -/
def rawMinLon : List Point → ℝ
  | [] => 0
  | p :: ps => ps.foldl (fun acc q => min acc q.lon) p.lon

/-- Raw maximum longitude, as folded by `get_bounds`. -/
def rawMaxLon : List Point → ℝ
  | [] => 0
  | p :: ps => ps.foldl (fun acc q => max acc q.lon) p.lon

/-- Function `get_bounds` from `core.py`: `None` on an empty track, otherwise the
raw min/max box expanded on all four edges by the angular margin
`max_distance_m * (1 / 111320) * 1.5`. -/
def getBounds (pts : List Point) (maxDistanceM : ℝ) : Option BBox :=
  match pts with
  | [] => none
  | p :: ps =>
    let angularMargin := maxDistanceM * APPROX_DEGREES_PER_METER * 1.5
    some ⟨rawMinLat (p :: ps) - angularMargin, rawMinLon (p :: ps) - angularMargin,
          rawMaxLat (p :: ps) + angularMargin, rawMaxLon (p :: ps) + angularMargin⟩

/-- A raw POI record: optional Overpass identifier, location, and open
string-keyed tags. -/
structure POI where
  id : Option ℕ
  lat : ℝ
  lon : ℝ
  tags : List (String × String)

/-- Predicate: the identifier of `q` (if any) is not among `seen`.  Used
only to state the refinement between `deduplicate_pois_by_id` and the
spec-side deduplication function. -/
def notSeen (seen : List ℕ) (q : POI) : Bool := decide (∀ i ∈ seen, q.id ≠ some i)

/-- Loop body of `deduplicate_pois_by_id`, rendered as a recursion over
the remaining input with the set of already-seen identifiers as
accumulator: a POI with an unseen identifier is kept and its identifier
recorded; a POI with a seen identifier is dropped; a POI with no
identifier is dropped (the source logs a warning and continues). -/
def dedupAux (seen : List ℕ) : List POI → List POI
  | [] => []
  | poi :: rest =>
    match poi.id with
    | some i => if i ∈ seen then dedupAux seen rest else poi :: dedupAux (i :: seen) rest
    | none => dedupAux seen rest

/-- Function `deduplicate_pois_by_id` from `core.py`. -/
def deduplicatePoisById (pois : List POI) : List POI := dedupAux [] pois

/-- Modelled from the spec, §4.4 (refinement target only):
keep the first record bearing each identifier, drop every later record
with the same identifier, drop identifier-less records, preserve order. -/
def dedupeSpecFn : List POI → List POI
  | [] => []
  | poi :: rest =>
    match poi.id with
    | none => dedupeSpecFn rest
    | some i => poi :: dedupeSpecFn (rest.filter fun q => decide (q.id ≠ some i))
termination_by l => l.length
decreasing_by
  · simp only [List.length_cons]
    omega
  · simp only [List.length_cons]
    exact Nat.lt_succ_of_le (List.length_filter_le _ _)

open Classical in
/-- Function `filter_pois_near_track` from `core.py`: for each POI, radius-query
the KD-tree with radius `max_distance_m * (1 / 111320) * 1.5` degrees;
if candidates exist, keep the POI as soon as one candidate track point
has haversine distance strictly below `max_distance_m` (the source breaks
out of the candidate loop at the first acceptance). -/
def filterPoisNearTrack (trackPointsCoords : List Point) (pois : List POI)
    (maxDistanceM : ℝ) : List POI :=
  let kdtreeRadiusDegrees := maxDistanceM * APPROX_DEGREES_PER_METER * 1.5
  pois.filter fun poi =>
    let indicesInRange := queryBallPoint trackPointsCoords ⟨poi.lat, poi.lon⟩ kdtreeRadiusDegrees
    decide (indicesInRange ≠ [] ∧ ∃ idx ∈ indicesInRange,
      haversine poi.lat poi.lon (trackPointsCoords.getD idx default).lat
        (trackPointsCoords.getD idx default).lon < maxDistanceM)

/-- Function `process_gpx_and_pois` from `core.py`, with GPX parsing stripped to
the list of track points it yields and the Overpass call abstracted as
the collaborator `query`.  Returns the filtered POIs and the collected
bboxes (`none` models Python `None`); the outer `Option` is `none` when
the fuel budget of the planner is exhausted. -/
def processGpxAndPois (query : BBox → List String → List POI) (poiTypes : List String)
    (trackPointsCoords : List Point) (maxDistanceM maxBboxAreaSqDeg : ℝ)
    (latDivisions lonDivisions : ℕ) (showBboxes : Bool) (fuel : ℕ) :
    Option (List POI × Option (List BBox)) :=
  match getBounds trackPointsCoords maxDistanceM with
  | none => some ([], some [])
  | some bounds =>
    if trackPointsCoords.isEmpty then some ([], some [])
    else
      match getRelevantBboxes fuel bounds trackPointsCoords maxBboxAreaSqDeg
          latDivisions lonDivisions with
      | none => none
      | some bboxes =>
        let collectedBboxes : Option (List BBox) := if showBboxes then some bboxes else none
        let pois := (bboxes.map fun bbox => query bbox poiTypes).flatten
        let deduplicatedPois := deduplicatePoisById pois
        let filteredPois := filterPoisNearTrack trackPointsCoords deduplicatedPois maxDistanceM
        some (filteredPois, collectedBboxes)

/-- The trivial query collaborator returning no POIs, used to exhibit
concrete runs of the orchestrator. -/
def noQuery : BBox → List String → List POI := fun _ _ => []

/-- Membership of a point in the closed rectangle of a bbox. -/
def inRect (b : BBox) (p : Point) : Prop :=
  b.south ≤ p.lat ∧ p.lat ≤ b.north ∧ b.west ≤ p.lon ∧ p.lon ≤ b.east

end

section Lemmas

open Classical

lemma mem_queryBallPoint {pts : List Point} {c : Point} {r : ℝ} {i : ℕ} :
    i ∈ queryBallPoint pts c r ↔ i < pts.length ∧ euclidDist (pts.getD i default) c ≤ r := by
  simp [queryBallPoint]

/-- The structural content of `filter_pois_near_track`: a POI is in the
output iff it is in the input and some radius-query candidate is strictly
within range; the leading non-emptiness guard in the source is redundant. -/
lemma mem_filterPoisNearTrack {trackPts : List Point} {pois : List POI} {maxd : ℝ} {poi : POI} :
    poi ∈ filterPoisNearTrack trackPts pois maxd ↔
      poi ∈ pois ∧
        ∃ idx ∈ queryBallPoint trackPts ⟨poi.lat, poi.lon⟩ (maxd * APPROX_DEGREES_PER_METER * 1.5),
          haversine poi.lat poi.lon (trackPts.getD idx default).lat
            (trackPts.getD idx default).lon < maxd := by
  simp only [filterPoisNearTrack, List.mem_filter, decide_eq_true_eq]
  constructor
  · rintro ⟨hmem, -, hex⟩
    exact ⟨hmem, hex⟩
  · rintro ⟨hmem, idx, hidx, hdist⟩
    exact ⟨hmem, List.ne_nil_of_mem hidx, idx, hidx, hdist⟩

lemma getRelevantBboxes_zero (bbox : BBox) (pts : List Point) (maxArea : ℝ)
    (latDiv lonDiv : ℕ) : getRelevantBboxes 0 bbox pts maxArea latDiv lonDiv = none := rfl

lemma getRelevantBboxes_succ (fuel : ℕ) (bbox : BBox) (pts : List Point) (maxArea : ℝ)
    (latDiv lonDiv : ℕ) :
    getRelevantBboxes (fuel + 1) bbox pts maxArea latDiv lonDiv =
      if ¬ bboxContainsGpxPoints bbox pts then some []
      else if bboxArea bbox ≤ maxArea then some [bbox]
      else
        collectSome (fun sub => getRelevantBboxes fuel sub pts maxArea latDiv lonDiv)
          (subdivideBbox bbox latDiv lonDiv) := rfl

lemma collectSome_mem_of_mem {α β : Type} {f : α → Option (List β)} {l : List α} {L : List β}
    (h : collectSome f l = some L) {x : α} (hx : x ∈ l) :
    ∃ lx, f x = some lx ∧ ∀ y ∈ lx, y ∈ L := by
  induction l generalizing L with
  | nil => simp at hx
  | cons a as ih =>
    rcases hfa : f a with _ | la
    · rw [collectSome, hfa] at h
      simp at h
    · rcases hrest : collectSome f as with _ | ras
      · rw [collectSome, hfa, hrest] at h
        simp at h
      · rw [collectSome, hfa, hrest] at h
        simp only [Option.some.injEq] at h
        subst h
        rcases List.mem_cons.mp hx with rfl | hx'
        · exact ⟨la, hfa, fun y hy => List.mem_append_left _ hy⟩
        · obtain ⟨lx, hlx, hsub⟩ := ih hrest hx'
          exact ⟨lx, hlx, fun y hy => List.mem_append_right _ (hsub y hy)⟩

lemma collectSome_exists_src {α β : Type} {f : α → Option (List β)} {l : List α} {L : List β}
    (h : collectSome f l = some L) {y : β} (hy : y ∈ L) :
    ∃ x ∈ l, ∃ lx, f x = some lx ∧ y ∈ lx := by
  induction l generalizing L with
  | nil =>
    rw [collectSome] at h
    simp only [Option.some.injEq] at h
    subst h
    simp at hy
  | cons a as ih =>
    rcases hfa : f a with _ | la
    · rw [collectSome, hfa] at h
      simp at h
    · rcases hrest : collectSome f as with _ | ras
      · rw [collectSome, hfa, hrest] at h
        simp at h
      · rw [collectSome, hfa, hrest] at h
        simp only [Option.some.injEq] at h
        subst h
        rcases List.mem_append.mp hy with hya | hyr
        · exact ⟨a, List.mem_cons_self _ _, la, hfa, hya⟩
        · obtain ⟨x, hxmem, lx, hlx, hylx⟩ := ih hrest hyr
          exact ⟨x, List.mem_cons_of_mem _ hxmem, lx, hlx, hylx⟩

lemma collectSome_eq_some_of_forall {α β : Type} {f : α → Option (List β)} {l : List α}
    (h : ∀ x ∈ l, ∃ lx, f x = some lx) : ∃ L, collectSome f l = some L := by
  induction l with
  | nil => exact ⟨[], rfl⟩
  | cons a as ih =>
    obtain ⟨la, hla⟩ := h a (List.mem_cons_self _ _)
    obtain ⟨ras, hras⟩ := ih fun x hx => h x (List.mem_cons_of_mem _ hx)
    exact ⟨la ++ ras, by rw [collectSome, hla, hras]⟩

lemma bboxArea_of_mem_subdivide {b : BBox} {latDiv lonDiv : ℕ} {sub : BBox}
    (hla : 1 ≤ latDiv) (hlo : 1 ≤ lonDiv) (hs : sub ∈ subdivideBbox b latDiv lonDiv) :
    bboxArea sub = bboxArea b / ((latDiv * lonDiv : ℕ) : ℝ) := by
  simp only [subdivideBbox, List.mem_flatMap, List.mem_map, List.mem_range] at hs
  obtain ⟨i, hi, j, hj, rfl⟩ := hs
  have h1 : ((latDiv : ℝ)) ≠ 0 := Nat.cast_ne_zero.mpr (by omega)
  have h2 : ((lonDiv : ℝ)) ≠ 0 := Nat.cast_ne_zero.mpr (by omega)
  simp only [bboxArea]
  push_cast
  field_simp
  ring

lemma exists_grid_interval {a x s : ℝ} (n : ℕ) (hn : 1 ≤ n)
    (h1 : a ≤ x) (h2 : x ≤ a + n * s) :
    ∃ i < n, a + i * s ≤ x ∧ x ≤ a + (i + 1) * s := by
  induction n with
  | zero => omega
  | succ m ih =>
    rcases Nat.eq_zero_or_pos m with hm | hm
    · subst hm
      refine ⟨0, by omega, by simpa using h1, ?_⟩
      push_cast at h2 ⊢
      linarith
    · by_cases hx : x ≤ a + m * s
      · obtain ⟨i, hi, hl, hr⟩ := ih hm hx
        exact ⟨i, by omega, hl, hr⟩
      · push_neg at hx
        refine ⟨m, by omega, le_of_lt hx, ?_⟩
        push_cast at h2 ⊢
        linarith

lemma exists_mem_subdivide_inRect {b : BBox} {p : Point} {latDiv lonDiv : ℕ}
    (hla : 1 ≤ latDiv) (hlo : 1 ≤ lonDiv) (hp : inRect b p) :
    ∃ sub ∈ subdivideBbox b latDiv lonDiv, inRect sub p := by
  obtain ⟨h1, h2, h3, h4⟩ := hp
  have hc1 : ((latDiv : ℝ)) ≠ 0 := Nat.cast_ne_zero.mpr (by omega)
  have hc2 : ((lonDiv : ℝ)) ≠ 0 := Nat.cast_ne_zero.mpr (by omega)
  have hlat : p.lat ≤ b.south + latDiv * ((b.north - b.south) / latDiv) := by
    have : (latDiv : ℝ) * ((b.north - b.south) / latDiv) = b.north - b.south := by
      field_simp
    rw [this]
    linarith
  have hlon : p.lon ≤ b.west + lonDiv * ((b.east - b.west) / lonDiv) := by
    have : (lonDiv : ℝ) * ((b.east - b.west) / lonDiv) = b.east - b.west := by
      field_simp
    rw [this]
    linarith
  obtain ⟨i, hi, hil, hir⟩ := exists_grid_interval latDiv hla h1 hlat
  obtain ⟨j, hj, hjl, hjr⟩ := exists_grid_interval lonDiv hlo h3 hlon
  refine ⟨⟨b.south + i * ((b.north - b.south) / latDiv),
          b.west + j * ((b.east - b.west) / lonDiv),
          b.south + (i + 1) * ((b.north - b.south) / latDiv),
          b.west + (j + 1) * ((b.east - b.west) / lonDiv)⟩, ?_, hil, hir, hjl, hjr⟩
  unfold subdivideBbox
  exact List.mem_flatMap.mpr ⟨i, List.mem_range.mpr hi, List.mem_map.mpr
    ⟨j, List.mem_range.mpr hj, rfl⟩⟩

lemma getD_eq_of_lt {l : List Point} {n : ℕ} (hn : n < l.length) :
    l.getD n default = l[n] := by
  rw [List.getD_eq_getElem?_getD, List.getElem?_eq_getElem hn, Option.getD_some]

/-- The pruning test never rejects a bbox whose closed rectangle contains
a track point: the point lies in the dilated rectangle, and its distance
to the dilated centroid is at most half the dilated diagonal, hence
within the inflated radius query. -/
lemma bboxContains_of_inRect {b : BBox} {pts : List Point} {p : Point}
    (hmem : p ∈ pts) (hp : inRect b p) : bboxContainsGpxPoints b pts := by
  obtain ⟨h1, h2, h3, h4⟩ := hp
  obtain ⟨n, hn, hget⟩ := List.getElem_of_mem hmem
  have hgetD : pts.getD n default = p := by rw [getD_eq_of_lt hn, hget]
  simp only [bboxContainsGpxPoints]
  set dS := b.south - (b.north - b.south) * 0.05 with hdSdef
  set dN := b.north + (b.north - b.south) * 0.05 with hdNdef
  set dW := b.west - (b.east - b.west) * 0.05 with hdWdef
  set dE := b.east + (b.east - b.west) * 0.05 with hdEdef
  have hdSp : dS ≤ p.lat := by rw [hdSdef]; linarith
  have hpdN : p.lat ≤ dN := by rw [hdNdef]; linarith
  have hdWp : dW ≤ p.lon := by rw [hdWdef]; linarith
  have hpdE : p.lon ≤ dE := by rw [hdEdef]; linarith
  refine ⟨n, mem_queryBallPoint.mpr ⟨hn, ?_⟩, ?_, ?_, ?_, ?_⟩
  · rw [hgetD]
    have hD : (0 : ℝ) ≤ (dN - dS) ^ 2 + (dE - dW) ^ 2 := by positivity
    have key : euclidDist p ⟨(dS + dN) / 2, (dW + dE) / 2⟩ ≤
        Real.sqrt ((dN - dS) ^ 2 + (dE - dW) ^ 2) / 2 := by
      rw [euclidDist, sqDist]
      have h5 : (p.lat - (dS + dN) / 2) ^ 2 + (p.lon - (dW + dE) / 2) ^ 2 ≤
          ((dN - dS) ^ 2 + (dE - dW) ^ 2) / 4 := by
        nlinarith [mul_nonneg (sub_nonneg.mpr hdSp) (sub_nonneg.mpr hpdN),
          mul_nonneg (sub_nonneg.mpr hdWp) (sub_nonneg.mpr hpdE)]
      have h6 : Real.sqrt (((dN - dS) ^ 2 + (dE - dW) ^ 2) / 4) =
          Real.sqrt ((dN - dS) ^ 2 + (dE - dW) ^ 2) / 2 := by
        rw [Real.sqrt_div hD 4, show Real.sqrt 4 = 2 by
          rw [show (4 : ℝ) = 2 ^ 2 by norm_num, Real.sqrt_sq (by norm_num : (0 : ℝ) ≤ 2)]]
      calc Real.sqrt ((p.lat - (dS + dN) / 2) ^ 2 + (p.lon - (dW + dE) / 2) ^ 2)
          ≤ Real.sqrt (((dN - dS) ^ 2 + (dE - dW) ^ 2) / 4) := Real.sqrt_le_sqrt h5
        _ = Real.sqrt ((dN - dS) ^ 2 + (dE - dW) ^ 2) / 2 := h6
    calc euclidDist p ⟨(dS + dN) / 2, (dW + dE) / 2⟩
        ≤ Real.sqrt ((dN - dS) ^ 2 + (dE - dW) ^ 2) / 2 := key
      _ ≤ Real.sqrt ((dN - dS) ^ 2 + (dE - dW) ^ 2) / 2 * 1.1 :=
          le_mul_of_one_le_right (by positivity) (by norm_num)
  · rw [hgetD]; exact hdSp
  · rw [hgetD]; exact hpdN
  · rw [hgetD]; exact hdWp
  · rw [hgetD]; exact hpdE

/-- Claim C1: `filter_pois_near_track` keeps a POI in its output if and
only if the spatial-index radius query with radius
`maxDistanceMeters * (1/111320) * 1.5` degrees returns at least one
candidate track point whose haversine distance (spherical earth, radius
6,371,000 meters) to the POI is strictly less than `maxDistanceMeters`.
In particular a POI exactly at distance `maxDistanceMeters` from the
nearest track point is excluded (strict `<`), and a POI with zero
radius-query candidates is rejected. -/
theorem filterPoisNearTrack_mem_iff (trackPts : List Point) (pois : List POI) (maxd : ℝ)
    (poi : POI) :
    poi ∈ filterPoisNearTrack trackPts pois maxd ↔
      poi ∈ pois ∧
        ∃ idx ∈ queryBallPoint trackPts ⟨poi.lat, poi.lon⟩ (maxd * (1 / 111320) * 1.5),
          haversine poi.lat poi.lon (trackPts.getD idx default).lat
            (trackPts.getD idx default).lon < maxd :=
  mem_filterPoisNearTrack

/-- Claim C2: no track point falls in a pruned cell.  Whenever the planner
run succeeds, every track point contained in the planning region lies
inside at least one returned cell: a region containing a track point is
never pruned (the dilated-rectangle radius query is a superset filter and
the exact rectangle check then succeeds), and the grid subdivision tiles
its parent region. -/
theorem getRelevantBboxes_covers (fuel : ℕ) (bbox : BBox) (pts : List Point) (maxArea : ℝ)
    (latDiv lonDiv : ℕ) (cells : List BBox)
    (hla : 2 ≤ latDiv) (hlo : 2 ≤ lonDiv) (hA : 0 < maxArea)
    (hrun : getRelevantBboxes fuel bbox pts maxArea latDiv lonDiv = some cells)
    (p : Point) (hp : p ∈ pts) (hin : inRect bbox p) :
    ∃ cell ∈ cells, inRect cell p := by
  induction fuel generalizing bbox cells with
  | zero => simp [getRelevantBboxes_zero] at hrun
  | succ fuel ih =>
    rw [getRelevantBboxes_succ] at hrun
    have hc := bboxContains_of_inRect hp hin
    rw [if_neg (not_not_intro hc)] at hrun
    by_cases harea : bboxArea bbox ≤ maxArea
    · rw [if_pos harea] at hrun
      injection hrun with hrun
      subst hrun
      exact ⟨bbox, List.mem_singleton_self _, hin⟩
    · rw [if_neg harea] at hrun
      obtain ⟨sub, hsubmem, hsubin⟩ :=
        exists_mem_subdivide_inRect (le_trans one_le_two hla) (le_trans one_le_two hlo) hin
      obtain ⟨ls, hls, hsubset⟩ := collectSome_mem_of_mem hrun hsubmem
      obtain ⟨cell, hcm, hcin⟩ := ih sub ls hls hsubin
      exact ⟨cell, hsubset cell hcm, hcin⟩

/-- Claim C3: every cell returned by `get_relevant_bboxes` has area
`(north - south) * (east - west)` at most `maxBboxAreaSqDeg`: a cell is
only emitted through the area-threshold branch. -/
theorem getRelevantBboxes_area_le (fuel : ℕ) (bbox : BBox) (pts : List Point) (maxArea : ℝ)
    (latDiv lonDiv : ℕ) (cells : List BBox)
    (hrun : getRelevantBboxes fuel bbox pts maxArea latDiv lonDiv = some cells) :
    ∀ cell ∈ cells, bboxArea cell ≤ maxArea := by
  induction fuel generalizing bbox cells with
  | zero => simp [getRelevantBboxes_zero] at hrun
  | succ fuel ih =>
    rw [getRelevantBboxes_succ] at hrun
    by_cases hc : ¬ bboxContainsGpxPoints bbox pts
    · rw [if_pos hc] at hrun
      injection hrun with hrun
      subst hrun
      intro cell hcell
      simp at hcell
    · rw [if_neg hc] at hrun
      by_cases harea : bboxArea bbox ≤ maxArea
      · rw [if_pos harea] at hrun
        injection hrun with hrun
        subst hrun
        intro cell hcell
        rw [List.mem_singleton] at hcell
        subst hcell
        exact harea
      · rw [if_neg harea] at hrun
        intro cell hcell
        obtain ⟨sub, hsubmem, ls, hls, hcls⟩ := collectSome_exists_src hrun hcell
        exact ih sub ls hls cell hcls

/-- Claim C4: the recursion of `get_relevant_bboxes` terminates, with
depth bounded by a function of the ratio of the initial area to
`maxBboxAreaSqDeg`: each subdivision level divides cell area exactly by
`latDivisions * lonDivisions`, so a fuel budget of `n + 1` suffices as
soon as `area ≤ maxBboxAreaSqDeg * (latDivisions * lonDivisions) ^ n`. -/
theorem getRelevantBboxes_terminates (n : ℕ) (bbox : BBox) (pts : List Point) (maxArea : ℝ)
    (latDiv lonDiv : ℕ) (hla : 2 ≤ latDiv) (hlo : 2 ≤ lonDiv) (hA : 0 < maxArea)
    (hbound : bboxArea bbox ≤ maxArea * ((latDiv * lonDiv : ℕ) : ℝ) ^ n) :
    ∃ cells, getRelevantBboxes (n + 1) bbox pts maxArea latDiv lonDiv = some cells := by
  induction n generalizing bbox with
  | zero =>
    rw [getRelevantBboxes_succ]
    by_cases hc : ¬ bboxContainsGpxPoints bbox pts
    · exact ⟨[], if_pos hc⟩
    · rw [if_neg hc]
      have h1 : bboxArea bbox ≤ maxArea := by simpa using hbound
      rw [if_pos h1]
      exact ⟨[bbox], rfl⟩
  | succ n ih =>
    rw [getRelevantBboxes_succ]
    by_cases hc : ¬ bboxContainsGpxPoints bbox pts
    · exact ⟨[], if_pos hc⟩
    · rw [if_neg hc]
      by_cases harea : bboxArea bbox ≤ maxArea
      · rw [if_pos harea]
        exact ⟨[bbox], rfl⟩
      · rw [if_neg harea]
        apply collectSome_eq_some_of_forall
        intro sub hsub
        apply ih
        have hkNat : 0 < latDiv * lonDiv := Nat.mul_pos (by omega) (by omega)
        have hk : (0 : ℝ) < ((latDiv * lonDiv : ℕ) : ℝ) := by exact_mod_cast hkNat
        rw [bboxArea_of_mem_subdivide (le_trans one_le_two hla) (le_trans one_le_two hlo) hsub]
        rw [div_le_iff₀ hk]
        calc bboxArea bbox ≤ maxArea * ((latDiv * lonDiv : ℕ) : ℝ) ^ (n + 1) := hbound
          _ = maxArea * ((latDiv * lonDiv : ℕ) : ℝ) ^ n * ((latDiv * lonDiv : ℕ) : ℝ) := by
              rw [pow_succ, mul_assoc]

lemma foldl_min_le_init (ps : List Point) (f : Point → ℝ) (x : ℝ) :
    ps.foldl (fun acc q => min acc (f q)) x ≤ x := by
  induction ps generalizing x with
  | nil => exact le_refl x
  | cons q qs ih => exact le_trans (ih (min x (f q))) (min_le_left _ _)

lemma init_le_foldl_max (ps : List Point) (f : Point → ℝ) (x : ℝ) :
    x ≤ ps.foldl (fun acc q => max acc (f q)) x := by
  induction ps generalizing x with
  | nil => exact le_refl x
  | cons q qs ih => exact le_trans (le_max_left _ _) (ih (max x (f q)))

/-- Claim C5: for a non-empty track and positive `max_distance_m`,
`get_bounds` returns the raw min/max box with each of the four edges
shifted outward by exactly the angular margin
`max_distance_m * (1/111320) * 1.5`, and the result satisfies
`south < north` and `west < east`. -/
theorem getBounds_margins (p : Point) (ps : List Point) (maxd : ℝ) (hmaxd : 0 < maxd) :
    ∃ b, getBounds (p :: ps) maxd = some b ∧
      b.south = rawMinLat (p :: ps) - maxd * (1 / 111320) * 1.5 ∧
      b.west = rawMinLon (p :: ps) - maxd * (1 / 111320) * 1.5 ∧
      b.north = rawMaxLat (p :: ps) + maxd * (1 / 111320) * 1.5 ∧
      b.east = rawMaxLon (p :: ps) + maxd * (1 / 111320) * 1.5 ∧
      b.south < b.north ∧ b.west < b.east := by
  have hm : 0 < maxd * (1 / 111320) * 1.5 := by
    have h1 : (0 : ℝ) < 1 / 111320 := by norm_num
    have h2 : (0 : ℝ) < 1.5 := by norm_num
    exact mul_pos (mul_pos hmaxd h1) h2
  have hAPP : APPROX_DEGREES_PER_METER = 1 / 111320 := rfl
  refine ⟨_, rfl, rfl, rfl, rfl, rfl, ?_, ?_⟩
  · show rawMinLat (p :: ps) - maxd * APPROX_DEGREES_PER_METER * 1.5 <
      rawMaxLat (p :: ps) + maxd * APPROX_DEGREES_PER_METER * 1.5
    have h1 : rawMinLat (p :: ps) ≤ p.lat := foldl_min_le_init ps Point.lat p.lat
    have h2 : p.lat ≤ rawMaxLat (p :: ps) := init_le_foldl_max ps Point.lat p.lat
    rw [hAPP]
    linarith
  · show rawMinLon (p :: ps) - maxd * APPROX_DEGREES_PER_METER * 1.5 <
      rawMaxLon (p :: ps) + maxd * APPROX_DEGREES_PER_METER * 1.5
    have h1 : rawMinLon (p :: ps) ≤ p.lon := foldl_min_le_init ps Point.lon p.lon
    have h2 : p.lon ≤ rawMaxLon (p :: ps) := init_le_foldl_max ps Point.lon p.lon
    rw [hAPP]
    linarith

lemma dedupeSpecFn_nil : dedupeSpecFn [] = [] := by
  rw [dedupeSpecFn]

lemma dedupeSpecFn_cons_none (poi : POI) (rest : List POI) (h : poi.id = none) :
    dedupeSpecFn (poi :: rest) = dedupeSpecFn rest := by
  rw [dedupeSpecFn, h]

lemma dedupeSpecFn_cons_some (poi : POI) (rest : List POI) (i : ℕ) (h : poi.id = some i) :
    dedupeSpecFn (poi :: rest) =
      poi :: dedupeSpecFn (rest.filter fun q => decide (q.id ≠ some i)) := by
  rw [dedupeSpecFn, h]

lemma dedupAux_eq_spec (seen : List ℕ) (pois : List POI) :
    dedupAux seen pois = dedupeSpecFn (pois.filter (notSeen seen)) := by
  induction pois generalizing seen with
  | nil => simp [dedupAux, dedupeSpecFn_nil]
  | cons poi rest ih =>
    rcases hid : poi.id with _ | i
    · have hpred : notSeen seen poi = true := by simp [notSeen, hid]
      rw [List.filter_cons_of_pos hpred]
      rw [dedupeSpecFn_cons_none poi _ hid]
      simp only [dedupAux, hid]
      exact ih seen
    · by_cases hmem : i ∈ seen
      · have hpred : ¬ notSeen seen poi = true := by
          simp only [notSeen, decide_eq_true_eq, not_forall]
          exact ⟨i, hmem, by simp [hid]⟩
        rw [List.filter_cons_of_neg hpred]
        simp only [dedupAux, hid, if_pos hmem]
        exact ih seen
      · have hpred : notSeen seen poi = true := by
          simp only [notSeen, decide_eq_true_eq]
          intro j hj hcontra
          rw [hid] at hcontra
          injection hcontra with hji
          exact hmem (hji ▸ hj)
        rw [List.filter_cons_of_pos hpred]
        rw [dedupeSpecFn_cons_some poi _ i hid]
        simp only [dedupAux, hid, if_neg hmem]
        rw [ih (i :: seen)]
        congr 1
        rw [List.filter_filter]
        congr 1
        apply List.filter_congr
        intro a ha
        simp only [notSeen, ← Bool.decide_and]
        apply decide_eq_decide.mpr
        constructor
        · intro hall
          exact ⟨hall i (List.mem_cons_self _ _), fun j hj => hall j (List.mem_cons_of_mem _ hj)⟩
        · rintro ⟨hne, hall⟩ j hj
          rcases List.mem_cons.mp hj with rfl | hj'
          · exact hne
          · exact hall j hj'

/-- Claim C6: `deduplicate_pois_by_id` keeps exactly the first occurrence
(in input order) of each identifier, drops every later record whose
identifier was already seen, drops every record whose identifier is
missing (the source logs a warning and continues), and preserves
first-seen input order — stated as equality with the specification
function `dedupeSpecFn` transcribed from the wording of the spec. -/
theorem deduplicatePoisById_eq_spec (pois : List POI) :
    deduplicatePoisById pois = dedupeSpecFn pois := by
  rw [deduplicatePoisById, dedupAux_eq_spec]
  congr 1
  apply List.filter_eq_self.mpr
  intro a ha
  simp [notSeen]

lemma dedupAux_ids (seen : List ℕ) (pois : List POI) :
    ((dedupAux seen pois).map POI.id).Nodup ∧
      ∀ q ∈ dedupAux seen pois, ∃ i, q.id = some i ∧ i ∉ seen := by
  induction pois generalizing seen with
  | nil => simp [dedupAux]
  | cons poi rest ih =>
    rcases hid : poi.id with _ | i
    · simpa only [dedupAux, hid] using ih seen
    · by_cases hmem : i ∈ seen
      · simpa only [dedupAux, hid, if_pos hmem] using ih seen
      · simp only [dedupAux, hid, if_neg hmem]
        obtain ⟨hnody, hall⟩ := ih (i :: seen)
        refine ⟨?_, ?_⟩
        · simp only [List.map_cons, List.nodup_cons]
          refine ⟨?_, hnody⟩
          intro hcontra
          obtain ⟨q, hq, hqid⟩ := List.mem_map.mp hcontra
          obtain ⟨j, hj, hjn⟩ := hall q hq
          rw [hj, hid] at hqid
          injection hqid with hji
          exact hjn (hji ▸ List.mem_cons_self i seen)
        · intro q hq
          rcases List.mem_cons.mp hq with rfl | hq'
          · exact ⟨i, hid, hmem⟩
          · obtain ⟨j, hj, hjn⟩ := hall q hq'
            exact ⟨j, hj, fun hc => hjn (List.mem_cons_of_mem _ hc)⟩

/-- Claim C7: the final pipeline output — `filter_pois_near_track`
applied to the output of `deduplicate_pois_by_id` — contains
pairwise-distinct, present identifiers: deduplication leaves only
records with unique present identifiers, and the proximity filter keeps
each surviving record at most once (it breaks out of the candidate loop
at the first accepting track point). -/
theorem pipeline_output_ids_unique (trackPts : List Point) (pois : List POI) (maxd : ℝ) :
    ((filterPoisNearTrack trackPts (deduplicatePoisById pois) maxd).map POI.id).Nodup ∧
      ∀ q ∈ filterPoisNearTrack trackPts (deduplicatePoisById pois) maxd, q.id.isSome := by
  obtain ⟨hnody, hall⟩ := dedupAux_ids [] pois
  have hsub : List.Sublist (filterPoisNearTrack trackPts (deduplicatePoisById pois) maxd)
      (deduplicatePoisById pois) := List.filter_sublist _
  refine ⟨hnody.sublist (hsub.map POI.id), ?_⟩
  intro q hq
  obtain ⟨i, hi, -⟩ := hall q (hsub.subset hq)
  rw [hi]
  rfl

/-- Claim C8: for a track containing no points, `get_bounds` returns
`None` and the orchestrator short-circuits, returning an empty POI list
without planning any query cells; the result is the same for every query
collaborator, so the collaborator is never consulted. -/
theorem processGpxAndPois_empty_track (query : BBox → List String → List POI)
    (poiTypes : List String) (maxd maxArea : ℝ) (latDiv lonDiv : ℕ) (showBboxes : Bool)
    (fuel : ℕ) :
    getBounds [] maxd = none ∧
      processGpxAndPois query poiTypes [] maxd maxArea latDiv lonDiv showBboxes fuel =
        some ([], some []) :=
  ⟨rfl, rfl⟩

lemma contains_center_example : bboxContainsGpxPoints ⟨0, 0, 2, 2⟩ [⟨1, 1⟩] :=
  bboxContains_of_inRect (List.mem_singleton_self _) (by norm_num [inRect])

lemma contains_unit_example : bboxContainsGpxPoints ⟨0, 0, 1, 1⟩ [⟨0.5, 0.5⟩] :=
  bboxContains_of_inRect (List.mem_singleton_self _) (by norm_num [inRect])

lemma subdivideBbox_one_one (bbox : BBox) : subdivideBbox bbox 1 1 = [bbox] := by
  simp only [subdivideBbox, show List.range 1 = [0] from rfl, List.flatMap_cons,
    List.flatMap_nil, List.map_cons, List.map_nil, List.append_nil]
  simp only [List.cons.injEq, and_true]
  ext <;> push_cast <;> ring

/-- With `lat_divisions = lon_divisions = 1`, subdividing returns the
region itself, so a region that contains a track point and exceeds the
area threshold recurses forever: no fuel budget suffices. -/
lemma divisionsOne_regress (bbox : BBox) (pts : List Point) (maxArea : ℝ)
    (hc : bboxContainsGpxPoints bbox pts) (ha : ¬ bboxArea bbox ≤ maxArea) :
    ∀ fuel, getRelevantBboxes fuel bbox pts maxArea 1 1 = none := by
  intro fuel
  induction fuel with
  | zero => rfl
  | succ fuel ih =>
    rw [getRelevantBboxes_succ, if_neg (not_not_intro hc), if_neg ha, subdivideBbox_one_one]
    simp only [collectSome, ih]

/-- Claim C9 (amended): the orchestrator performs no input validation.
In particular `latDivisions`/`lonDivisions` values below 2 are not
rejected: with divisions `1 × 1` every subdivision returns the region
itself, so planning a region that contains a track point and exceeds the
area threshold regresses infinitely — the fuel-instrumented recursion
fails for every fuel budget instead of failing fast before any I/O. -/
theorem getRelevantBboxes_divisions_one_regress (bbox : BBox) (pts : List Point)
    (maxArea : ℝ) (hc : bboxContainsGpxPoints bbox pts)
    (ha : ¬ bboxArea bbox ≤ maxArea) (fuel : ℕ) :
    getRelevantBboxes fuel bbox pts maxArea 1 1 = none :=
  divisionsOne_regress bbox pts maxArea hc ha fuel

/-- Counterexample to claim C9 as stated: with `lat_divisions =
lon_divisions = 1`, a concrete region containing a track point and
exceeding the area threshold is not rejected as a configuration error;
the planner recursion simply never terminates (here it exhausts a fuel
budget of 50 levels). -/
theorem divisionsOne_not_rejected :
    getRelevantBboxes 50 ⟨0, 0, 2, 2⟩ [⟨1, 1⟩] 1 1 1 = none :=
  divisionsOne_regress ⟨0, 0, 2, 2⟩ [⟨1, 1⟩] 1 contains_center_example
    (by norm_num [bboxArea]) 50

theorem getRelevantBboxes_divisions_one_regress_witness :
    getRelevantBboxes 5 ⟨0, 0, 2, 2⟩ [⟨1, 1⟩] 1 1 1 = none :=
  getRelevantBboxes_divisions_one_regress ⟨0, 0, 2, 2⟩ [⟨1, 1⟩] 1 contains_center_example
    (by norm_num [bboxArea]) 5

/-- Claim C10 (amended): with `show_bboxes` false the orchestrator
returns `None` for the collected cell list whenever the track is
non-empty; in the empty-track short-circuit case the source returns an
empty list instead of `None`. -/
theorem processGpxAndPois_collected_bboxes (query : BBox → List String → List POI)
    (poiTypes : List String) (trackPts : List Point) (maxd maxArea : ℝ)
    (latDiv lonDiv fuel : ℕ) (result : List POI × Option (List BBox))
    (hrun : processGpxAndPois query poiTypes trackPts maxd maxArea latDiv lonDiv false fuel =
      some result) :
    result.2 = if trackPts.isEmpty then some [] else none := by
  cases trackPts with
  | nil =>
    injection hrun with h
    rw [← h]
    rfl
  | cons p ps =>
    simp only [processGpxAndPois, getBounds, List.isEmpty_cons, Bool.false_eq_true,
      if_false] at hrun
    rcases hplan : getRelevantBboxes fuel
        ⟨rawMinLat (p :: ps) - maxd * APPROX_DEGREES_PER_METER * 1.5,
         rawMinLon (p :: ps) - maxd * APPROX_DEGREES_PER_METER * 1.5,
         rawMaxLat (p :: ps) + maxd * APPROX_DEGREES_PER_METER * 1.5,
         rawMaxLon (p :: ps) + maxd * APPROX_DEGREES_PER_METER * 1.5⟩
        (p :: ps) maxArea latDiv lonDiv with _ | bboxes
    · rw [hplan] at hrun
      simp at hrun
    · rw [hplan] at hrun
      simp only [Bool.false_eq_true, if_false, Option.some.injEq] at hrun
      rw [← hrun]
      simp

/-- Counterexample to claim C10 as stated: in the empty-track
short-circuit case with `show_bboxes = False`, the orchestrator returns
the empty list for the collected cells, which is not `None`. -/
theorem emptyTrack_cells_not_none :
    processGpxAndPois noQuery [] [] 1 1 2 2 false 1 = some ([], some []) ∧
      some ([] : List BBox) ≠ (none : Option (List BBox)) :=
  ⟨rfl, by simp⟩

theorem processGpxAndPois_collected_bboxes_witness :
    (([] : List POI), some ([] : List BBox)).2 =
      if ([] : List Point).isEmpty then some [] else none :=
  processGpxAndPois_collected_bboxes noQuery [] [] 1 1 2 2 1 ([], some []) rfl

lemma getRelevantBboxes_unit_eval :
    getRelevantBboxes 1 ⟨0, 0, 1, 1⟩ [⟨0.5, 0.5⟩] 1 2 2 = some [⟨0, 0, 1, 1⟩] := by
  rw [getRelevantBboxes_succ, if_neg (not_not_intro contains_unit_example),
    if_pos (by norm_num [bboxArea])]

theorem getRelevantBboxes_covers_witness :
    ∃ cell ∈ [(⟨0, 0, 1, 1⟩ : BBox)], inRect cell ⟨0.5, 0.5⟩ :=
  getRelevantBboxes_covers 1 ⟨0, 0, 1, 1⟩ [⟨0.5, 0.5⟩] 1 2 2 [⟨0, 0, 1, 1⟩]
    (le_refl 2) (le_refl 2) one_pos getRelevantBboxes_unit_eval ⟨0.5, 0.5⟩
    (List.mem_singleton_self _) (by norm_num [inRect])

theorem getRelevantBboxes_area_le_witness : bboxArea ⟨0, 0, 1, 1⟩ ≤ 1 :=
  getRelevantBboxes_area_le 1 ⟨0, 0, 1, 1⟩ [⟨0.5, 0.5⟩] 1 2 2 [⟨0, 0, 1, 1⟩]
    getRelevantBboxes_unit_eval ⟨0, 0, 1, 1⟩ (List.mem_singleton_self _)

theorem getRelevantBboxes_terminates_witness :
    ∃ cells, getRelevantBboxes 1 ⟨0, 0, 1, 1⟩ [⟨0.5, 0.5⟩] 1 2 2 = some cells :=
  getRelevantBboxes_terminates 0 ⟨0, 0, 1, 1⟩ [⟨0.5, 0.5⟩] 1 2 2
    (le_refl 2) (le_refl 2) one_pos (by norm_num [bboxArea])

theorem getBounds_margins_witness :
    ∃ b, getBounds [(⟨0, 0⟩ : Point)] 1 = some b ∧
      b.south = rawMinLat [(⟨0, 0⟩ : Point)] - 1 * (1 / 111320) * 1.5 ∧
      b.west = rawMinLon [(⟨0, 0⟩ : Point)] - 1 * (1 / 111320) * 1.5 ∧
      b.north = rawMaxLat [(⟨0, 0⟩ : Point)] + 1 * (1 / 111320) * 1.5 ∧
      b.east = rawMaxLon [(⟨0, 0⟩ : Point)] + 1 * (1 / 111320) * 1.5 ∧
      b.south < b.north ∧ b.west < b.east :=
  getBounds_margins ⟨0, 0⟩ [] 1 one_pos

end Lemmas

end Thirsty
